import Mathlib

/-
  Verification of a mark-and-sweep garbage collector (gc.cpp).

  The heap is a fixed array of `HEAP_SIZE` objects, each with two reference
  fields (`head`, `tail`, nullable) and a collector-private mark bit.  We embed
  the program shallowly, parametric in the capacity `n`:

    * pointers become `Option (Fin n)` (nullptr = `none`);
    * the heap becomes a function `Fin n → Obj n`;
    * the globals `root` and `free_list` join the heap in a state record `GC n`;
    * the recursive `mark` is given explicit fuel (the C recursion is
      unbounded; we prove the result is fuel-independent once the fuel exceeds
      the number of unmarked slots, so `n + 1` fuel computes the function the
      C recursion denotes);
    * the `for` loops of `init_heap` and the sweep phase become the
      structurally recursive ascending loop `loopFrom`.
-/

namespace GCfifty

/-- One heap slot: two nullable reference fields and the mark bit
(`struct Object` in gc.cpp). -/
structure Obj (n : ℕ) where
  head : Option (Fin n)
  tail : Option (Fin n)
  marked : Bool
deriving DecidableEq, Repr

/-- The global mutable state of gc.cpp: the array `heap`, the external
root reference `root`, and the free-list head `free_list`. -/
structure GC (n : ℕ) where
  heap : Fin n → Obj n
  root : Option (Fin n)
  free_list : Option (Fin n)

variable {n : ℕ}

/-- The function `add_to_free_list(p)`: link `p` onto the head of the free list through its
`tail` field (`p->tail = free_list; free_list = p;`). -/
def add_to_free_list (s : GC n) (p : Fin n) : GC n :=
  { s with
    heap := Function.update s.heap p { s.heap p with tail := s.free_list }
    free_list := some p }

/-- Ascending `for (int i = ...; i < n; i++)` loop over slot indices, with the
iteration count made explicit as structural fuel.  Run with fuel `n` from
index `0` it performs the body at `0, 1, …, n-1` in order. -/
def loopFrom (f : GC n → Fin n → GC n) : ℕ → ℕ → GC n → GC n
  | 0, _, s => s
  | fuel + 1, i, s =>
    if h : i < n then loopFrom f fuel (i + 1) (f s ⟨i, h⟩) else s

/-- The zero-initialized global state of the C program before `init_heap`
runs: all fields null, mark bits clear, `root` and `free_list` null. -/
def initState : GC n :=
  { heap := fun _ => ⟨none, none, false⟩, root := none, free_list := none }

/-- The function `init_heap()`: push every slot `0 … n-1` onto the free list, in index
order. -/
def init_heap (s : GC n) : GC n :=
  loopFrom add_to_free_list n 0 s

/-- The statement `p->marked = true;` of `mark`. -/
def setMark (h : Fin n → Obj n) (p : Fin n) : Fin n → Obj n :=
  Function.update h p { h p with marked := true }

/-- The function `mark(p)` with explicit fuel: return at once on null or already-marked,
otherwise set the mark bit, then mark `p->head`, then mark `p->tail`
(each field read from the heap current at the time of the read, as in C). -/
def markFuel : ℕ → (Fin n → Obj n) → Option (Fin n) → Fin n → Obj n
  | _, h, none => h
  | 0, h, some _ => h
  | fuel + 1, h, some p =>
    if (h p).marked then h
    else
      let h1 := setMark h p
      let h2 := markFuel fuel h1 (h1 p).head
      markFuel fuel h2 (h2 p).tail

/-- The mark-bit clearing loop of the collector
(`for i: heap[i].marked = false`); the loop body touches each slot once and
only its mark bit, so its effect is this pointwise map. -/
def clearMarks (h : Fin n → Obj n) : Fin n → Obj n :=
  fun i => { h i with marked := false }

/-- One iteration of the sweep loop: `if (!heap[i].marked) add_to_free_list(&heap[i])`. -/
def sweepStep (t : GC n) (i : Fin n) : GC n :=
  if (t.heap i).marked then t else add_to_free_list t i

/-- The collection performed inside `allocate` when the free list is empty:
clear all mark bits, `mark(root)`, then reset `free_list` to null and push
every unmarked slot in index order. -/
def collect (s : GC n) : GC n :=
  let h1 := clearMarks s.heap
  let h2 := markFuel (n + 1) h1 s.root
  loopFrom sweepStep n 0 { heap := h2, root := s.root, free_list := none }

/-- The tail end of `allocate`: `p = free_list; free_list = free_list->tail;
p->head = nullptr; p->tail = nullptr; return p;` — or, when the free list is
empty, the early `return nullptr` (reached only right after a collection that
freed nothing). -/
def popFree (s : GC n) : Option (Fin n) × GC n :=
  match s.free_list with
  | none => (none, s)
  | some p =>
      (some p,
       { heap := Function.update s.heap p { s.heap p with head := none, tail := none }
         root := s.root
         free_list := (s.heap p).tail })

/-- The function `allocate()`: collect if the free list is empty; then pop the free-list
head, null both of its fields, and return it — or return null if the free
list is still empty. -/
def allocate (s : GC n) : Option (Fin n) × GC n :=
  if s.free_list = none then popFree (collect s) else popFree s

/-- Client root mutation (`root = v;` — `root` is a public variable). -/
def setRoot (s : GC n) (v : Option (Fin n)) : GC n :=
  { s with root := v }

/-- Client field mutation `a->head = v;`. -/
def setHead (s : GC n) (a : Fin n) (v : Option (Fin n)) : GC n :=
  { s with heap := Function.update s.heap a { s.heap a with head := v } }

/-- Client field mutation `a->tail = v;`. -/
def setTail (s : GC n) (a : Fin n) (v : Option (Fin n)) : GC n :=
  { s with heap := Function.update s.heap a { s.heap a with tail := v } }

/-- Iterate `allocate` a given number of times, collecting the results in
order. -/
def iterAlloc : ℕ → GC n → List (Option (Fin n)) × GC n
  | 0, s => ([], s)
  | k + 1, s =>
      let r := allocate s
      let rest := iterAlloc k r.2
      (r.1 :: rest.1, rest.2)

/-- The object-graph edge relation of a heap: `j` is stored in one of the two
reference fields of `i`. -/
def edge (h : Fin n → Obj n) (i j : Fin n) : Prop :=
  (h i).head = some j ∨ (h i).tail = some j

/-- Transitive reachability from an optional root reference through
`head`/`tail` fields. -/
def Reach (h : Fin n → Obj n) : Option (Fin n) → Fin n → Prop
  | none, _ => False
  | some r, i => Relation.ReflTransGen (edge h) r i

/-- Predicate `IsChain h f l`: starting at the reference `f` and repeatedly following
`tail` fields visits exactly the slots of `l` in order and then reaches
null. -/
def IsChain (h : Fin n → Obj n) : Option (Fin n) → List (Fin n) → Prop
  | none, [] => True
  | none, _ :: _ => False
  | some _, [] => False
  | some p, q :: l => p = q ∧ IsChain h (h q).tail l

/-- The number of slots whose mark bit is clear (the termination measure of
`mark`). -/
def unmarkedCount (h : Fin n → Obj n) : ℕ :=
  (Finset.univ.filter fun i => ¬ (h i).marked).card

/-! ### Basic facts about `setMark` and the unfolding of `markFuel` -/

theorem setMark_head (h : Fin n → Obj n) (p q : Fin n) :
    (setMark h p q).head = (h q).head := by
  rcases eq_or_ne q p with rfl | hq
  · simp [setMark]
  · simp [setMark, Function.update_noteq hq]

theorem setMark_tail (h : Fin n → Obj n) (p q : Fin n) :
    (setMark h p q).tail = (h q).tail := by
  rcases eq_or_ne q p with rfl | hq
  · simp [setMark]
  · simp [setMark, Function.update_noteq hq]

theorem setMark_marked_self (h : Fin n → Obj n) (p : Fin n) :
    (setMark h p p).marked = true := by
  simp [setMark]

theorem setMark_marked_ne (h : Fin n → Obj n) {p q : Fin n} (hq : q ≠ p) :
    (setMark h p q).marked = (h q).marked := by
  simp [setMark, Function.update_noteq hq]

theorem markFuel_none (fuel : ℕ) (h : Fin n → Obj n) :
    markFuel fuel h none = h := by
  cases fuel <;> rfl

theorem markFuel_zero (h : Fin n → Obj n) (p : Option (Fin n)) :
    markFuel 0 h p = h := by
  cases p <;> rfl

theorem markFuel_succ_of_marked {h : Fin n → Obj n} {p : Fin n}
    (hm : (h p).marked = true) (f : ℕ) :
    markFuel (f + 1) h (some p) = h := by
  simp [markFuel, hm]

theorem markFuel_succ_of_unmarked {h : Fin n → Obj n} {p : Fin n}
    (hm : (h p).marked = false) (f : ℕ) :
    markFuel (f + 1) h (some p) =
      markFuel f (markFuel f (setMark h p) ((setMark h p p).head))
        ((markFuel f (setMark h p) ((setMark h p p).head) p).tail) := by
  simp [markFuel, hm]

/-! ### Mark only touches mark bits (frame lemmas) -/

theorem markFuel_head (fuel : ℕ) (h : Fin n → Obj n) (p : Option (Fin n)) (i : Fin n) :
    (markFuel fuel h p i).head = (h i).head := by
  induction fuel generalizing h p with
  | zero => rw [markFuel_zero]
  | succ f ih =>
    cases p with
    | none => rw [markFuel_none]
    | some p =>
      rcases Bool.eq_false_or_eq_true (h p).marked with hm | hm
      · rw [markFuel_succ_of_marked hm]
      · rw [markFuel_succ_of_unmarked hm, ih, ih, setMark_head]

theorem markFuel_tail (fuel : ℕ) (h : Fin n → Obj n) (p : Option (Fin n)) (i : Fin n) :
    (markFuel fuel h p i).tail = (h i).tail := by
  induction fuel generalizing h p with
  | zero => rw [markFuel_zero]
  | succ f ih =>
    cases p with
    | none => rw [markFuel_none]
    | some p =>
      rcases Bool.eq_false_or_eq_true (h p).marked with hm | hm
      · rw [markFuel_succ_of_marked hm]
      · rw [markFuel_succ_of_unmarked hm, ih, ih, setMark_tail]

/-- Mark bits only ever go from clear to set during marking. -/
theorem markFuel_mono (fuel : ℕ) (h : Fin n → Obj n) (p : Option (Fin n)) {i : Fin n}
    (hi : (h i).marked = true) : (markFuel fuel h p i).marked = true := by
  induction fuel generalizing h p with
  | zero => rw [markFuel_zero]; exact hi
  | succ f ih =>
    cases p with
    | none => rw [markFuel_none]; exact hi
    | some p =>
      rcases Bool.eq_false_or_eq_true (h p).marked with hm | hm
      · rw [markFuel_succ_of_marked hm]; exact hi
      · rw [markFuel_succ_of_unmarked hm]
        apply ih
        apply ih
        rcases eq_or_ne i p with rfl | hne
        · exact setMark_marked_self h i
        · rw [setMark_marked_ne h hne]; exact hi

/-- With any nonzero fuel, `mark(p)` leaves `p` marked. -/
theorem markFuel_marks_arg (f : ℕ) (h : Fin n → Obj n) (p : Fin n) :
    (markFuel (f + 1) h (some p) p).marked = true := by
  rcases Bool.eq_false_or_eq_true (h p).marked with hm | hm
  · rw [markFuel_succ_of_marked hm]; exact hm
  · rw [markFuel_succ_of_unmarked hm]
    apply markFuel_mono
    apply markFuel_mono
    exact setMark_marked_self h p

/-! ### Edge and reachability transfer -/

/-- Two heaps with the same reference fields everywhere have the same edge
relation. -/
theorem edge_congr {h h' : Fin n → Obj n}
    (hh : ∀ i, (h' i).head = (h i).head ∧ (h' i).tail = (h i).tail) :
    edge h' = edge h := by
  funext i j
  exact propext (by simp only [edge, (hh i).1, (hh i).2])

theorem markFuel_fields (fuel : ℕ) (h : Fin n → Obj n) (p : Option (Fin n)) :
    ∀ i, (markFuel fuel h p i).head = (h i).head ∧
      (markFuel fuel h p i).tail = (h i).tail :=
  fun i => ⟨markFuel_head fuel h p i, markFuel_tail fuel h p i⟩

theorem setMark_fields (h : Fin n → Obj n) (p : Fin n) :
    ∀ i, (setMark h p i).head = (h i).head ∧ (setMark h p i).tail = (h i).tail :=
  fun i => ⟨setMark_head h p i, setMark_tail h p i⟩

/-! ### The unmarked-slot count -/

theorem unmarkedCount_le (fuel : ℕ) (h : Fin n → Obj n) (p : Option (Fin n)) :
    unmarkedCount (markFuel fuel h p) ≤ unmarkedCount h := by
  apply Finset.card_le_card
  intro i hi
  simp only [Finset.mem_filter, Finset.mem_univ, true_and] at hi ⊢
  intro hmm
  exact hi (markFuel_mono fuel h p hmm)

theorem unmarkedCount_setMark {h : Fin n → Obj n} {p : Fin n}
    (hm : (h p).marked = false) :
    unmarkedCount (setMark h p) < unmarkedCount h := by
  have hset : (Finset.univ.filter fun i => ¬ (setMark h p i).marked) =
      (Finset.univ.filter fun i => ¬ (h i).marked).erase p := by
    ext i
    simp only [Finset.mem_filter, Finset.mem_univ, true_and, Finset.mem_erase]
    rcases eq_or_ne i p with rfl | hne
    · simp [setMark_marked_self]
    · simp [setMark_marked_ne h hne, hne]
  have hp : p ∈ Finset.univ.filter fun i => ¬ (h i).marked := by
    simp [hm]
  unfold unmarkedCount
  rw [hset]
  exact Finset.card_erase_lt_of_mem hp

/-! ### Soundness: only slots reachable from the argument get marked -/

theorem markFuel_sound (fuel : ℕ) (h : Fin n → Obj n) (p : Option (Fin n)) (i : Fin n)
    (hi : (markFuel fuel h p i).marked = true) :
    (h i).marked = true ∨
      ∃ r, p = some r ∧ Relation.ReflTransGen (edge h) r i := by
  induction fuel generalizing h p with
  | zero => rw [markFuel_zero] at hi; exact Or.inl hi
  | succ f ih =>
    cases p with
    | none => rw [markFuel_none] at hi; exact Or.inl hi
    | some p =>
      rcases Bool.eq_false_or_eq_true (h p).marked with hm | hm
      · rw [markFuel_succ_of_marked hm] at hi; exact Or.inl hi
      · rw [markFuel_succ_of_unmarked hm] at hi
        set h1 := setMark h p with hh1
        set h2 := markFuel f h1 ((h1 p).head) with hh2
        have hfields1 : ∀ j, (h1 j).head = (h j).head ∧ (h1 j).tail = (h j).tail :=
          setMark_fields h p
        have hfields2 : ∀ j, (h2 j).head = (h j).head ∧ (h2 j).tail = (h j).tail := by
          intro j
          have := markFuel_fields f h1 ((h1 p).head) j
          exact ⟨this.1.trans (hfields1 j).1, this.2.trans (hfields1 j).2⟩
        have hedge1 : edge h1 = edge h := edge_congr hfields1
        have hedge2 : edge h2 = edge h := edge_congr hfields2
        rcases ih h2 ((h2 p).tail) hi with hi2 | ⟨r, hr, hrtg⟩
        · rcases ih h1 ((h1 p).head) hi2 with hi1 | ⟨r, hr, hrtg⟩
          · rcases eq_or_ne i p with rfl | hne
            · exact Or.inr ⟨i, rfl, Relation.ReflTransGen.refl⟩
            · rw [setMark_marked_ne h hne] at hi1
              exact Or.inl hi1
          · have hpr : edge h p r := Or.inl ((hfields1 p).1 ▸ hr)
            have hrtg2 : Relation.ReflTransGen (edge h) r i := by
              rw [hedge1] at hrtg; exact hrtg
            exact Or.inr ⟨p, rfl, Relation.ReflTransGen.head hpr hrtg2⟩
        · have hpr : edge h p r := Or.inr ((hfields2 p).2 ▸ hr)
          have hrtg2 : Relation.ReflTransGen (edge h) r i := by
            rw [hedge2] at hrtg; exact hrtg
          exact Or.inr ⟨p, rfl, Relation.ReflTransGen.head hpr hrtg2⟩

/-! ### Closure: with enough fuel, newly marked slots have marked successors -/

theorem markFuel_newclosed (fuel : ℕ) (h : Fin n → Obj n) (p : Option (Fin n))
    (hfuel : unmarkedCount h < fuel) (i j : Fin n)
    (hi : (markFuel fuel h p i).marked = true) (hiu : (h i).marked = false)
    (he : edge h i j) : (markFuel fuel h p j).marked = true := by
  induction fuel generalizing h p with
  | zero => exact absurd hfuel (Nat.not_lt_zero _)
  | succ f ih =>
    cases p with
    | none => rw [markFuel_none] at hi; rw [hi] at hiu; cases hiu
    | some p =>
      rcases Bool.eq_false_or_eq_true (h p).marked with hm | hm
      · rw [markFuel_succ_of_marked hm] at hi ⊢
        rw [hi] at hiu; cases hiu
      · rw [markFuel_succ_of_unmarked hm] at hi ⊢
        set h1 := setMark h p with hh1
        set h2 := markFuel f h1 ((h1 p).head) with hh2
        have hfields1 : ∀ j, (h1 j).head = (h j).head ∧ (h1 j).tail = (h j).tail :=
          setMark_fields h p
        have hfields2 : ∀ j, (h2 j).head = (h j).head ∧ (h2 j).tail = (h j).tail := by
          intro j
          have := markFuel_fields f h1 ((h1 p).head) j
          exact ⟨this.1.trans (hfields1 j).1, this.2.trans (hfields1 j).2⟩
        have hcount1 : unmarkedCount h1 < f :=
          Nat.lt_of_lt_of_le (unmarkedCount_setMark hm) (Nat.lt_succ_iff.mp hfuel)
        have hcount2 : unmarkedCount h2 < f :=
          Nat.lt_of_le_of_lt (unmarkedCount_le f h1 ((h1 p).head)) hcount1
        have hfpos : 0 < f := Nat.lt_of_le_of_lt (Nat.zero_le _) hcount1
        rcases eq_or_ne i p with rfl | hne
        · -- the argument itself: its successors are the head and tail calls
          rcases he with hhd | htl
          · -- j is i's head target: the head call marks it
            obtain ⟨f', rfl⟩ : ∃ f', f = f' + 1 :=
              ⟨f - 1, (Nat.succ_pred_eq_of_pos hfpos).symm⟩
            have hj2 : (h2 j).marked = true := by
              rw [hh2, (hfields1 i).1, hhd]
              exact markFuel_marks_arg f' h1 j
            exact markFuel_mono _ _ _ hj2
          · -- j is i's tail target: the tail call marks it
            obtain ⟨f', rfl⟩ : ∃ f', f = f' + 1 :=
              ⟨f - 1, (Nat.succ_pred_eq_of_pos hfpos).symm⟩
            have htl2 : (h2 i).tail = some j := (hfields2 i).2.trans htl
            rw [htl2]
            exact markFuel_marks_arg f' h2 j
        · have hiu1 : (h1 i).marked = false := by
            rw [hh1, setMark_marked_ne h hne]; exact hiu
          rcases Bool.eq_false_or_eq_true (h2 i).marked with hi2 | hi2
          · -- marked during the head call
            have he1 : edge h1 i j := by rw [edge_congr hfields1]; exact he
            have := ih h1 ((h1 p).head) hcount1 hi2 hiu1 he1
            exact markFuel_mono f _ _ this
          · -- marked during the tail call
            have he2 : edge h2 i j := by rw [edge_congr hfields2]; exact he
            exact ih h2 ((h2 p).tail) hcount2 hi hi2 he2

/-! ### Completeness from an all-clear heap -/

theorem markFuel_complete {h : Fin n → Obj n} (hall : ∀ i, (h i).marked = false)
    {fuel : ℕ} (hfuel : unmarkedCount h < fuel) {r i : Fin n}
    (hr : Relation.ReflTransGen (edge h) r i) :
    (markFuel fuel h (some r) i).marked = true := by
  induction hr with
  | refl =>
    obtain ⟨f, rfl⟩ : ∃ f, fuel = f + 1 :=
      ⟨fuel - 1, (Nat.succ_pred_eq_of_pos (Nat.pos_of_ne_zero (by rintro rfl; exact Nat.not_lt_zero _ hfuel))).symm⟩
    exact markFuel_marks_arg f h r
  | tail hab hbc ih =>
    exact markFuel_newclosed fuel h (some r) hfuel _ _ ih (hall _) hbc

/-! ### Fuel stability: the mark recursion terminates -/

/-- Any two fuel values exceeding the number of unmarked slots compute the
same result: the unbounded C recursion is well defined and `n + 1` fuel
computes it. -/
theorem markFuel_stable (f₁ : ℕ) :
    ∀ (f₂ : ℕ) (h : Fin n → Obj n) (p : Option (Fin n)),
      unmarkedCount h < f₁ → unmarkedCount h < f₂ →
      markFuel f₁ h p = markFuel f₂ h p := by
  induction f₁ with
  | zero => intro f₂ h p h1 _; exact absurd h1 (Nat.not_lt_zero _)
  | succ a ih =>
    intro f₂ h p h1 h2
    cases p with
    | none => rw [markFuel_none, markFuel_none]
    | some p =>
      obtain ⟨b, rfl⟩ : ∃ b, f₂ = b + 1 :=
        ⟨f₂ - 1, (Nat.succ_pred_eq_of_pos (Nat.pos_of_ne_zero (by rintro rfl; exact Nat.not_lt_zero _ h2))).symm⟩
      rcases Bool.eq_false_or_eq_true (h p).marked with hm | hm
      · rw [markFuel_succ_of_marked hm, markFuel_succ_of_marked hm]
      · rw [markFuel_succ_of_unmarked hm, markFuel_succ_of_unmarked hm]
        have hcount1 : unmarkedCount (setMark h p) < a :=
          Nat.lt_of_lt_of_le (unmarkedCount_setMark hm) (Nat.lt_succ_iff.mp h1)
        have hcount1b : unmarkedCount (setMark h p) < b :=
          Nat.lt_of_lt_of_le (unmarkedCount_setMark hm) (Nat.lt_succ_iff.mp h2)
        have hhd : markFuel a (setMark h p) ((setMark h p p).head) =
            markFuel b (setMark h p) ((setMark h p p).head) :=
          ih b _ _ hcount1 hcount1b
        rw [← hhd]
        set h2m := markFuel a (setMark h p) ((setMark h p p).head) with hh2m
        have hcount2 : unmarkedCount h2m < a :=
          Nat.lt_of_le_of_lt (unmarkedCount_le a _ _) hcount1
        have hcount2b : unmarkedCount h2m < b :=
          Nat.lt_of_le_of_lt (unmarkedCount_le a _ _) hcount1b
        exact ih b _ _ hcount2 hcount2b

/-! ### Free-list chains -/

theorem IsChain_some_cons {h : Fin n → Obj n} {p q : Fin n} {l : List (Fin n)} :
    IsChain h (some p) (q :: l) ↔ p = q ∧ IsChain h (h q).tail l :=
  Iff.rfl

theorem IsChain_nil {h : Fin n → Obj n} {f : Option (Fin n)}
    (hc : IsChain h f []) : f = none := by
  cases f with
  | none => rfl
  | some p => exact hc.elim

theorem IsChain_cons {h : Fin n → Obj n} {f : Option (Fin n)} {q : Fin n} {l : List (Fin n)}
    (hc : IsChain h f (q :: l)) : f = some q ∧ IsChain h (h q).tail l := by
  cases f with
  | none => exact hc.elim
  | some p => exact ⟨by rw [hc.1], hc.2⟩

/-- A chain is unaffected by heap changes outside its own slots' `tail`
fields. -/
theorem IsChain_congr {h h' : Fin n → Obj n} :
    ∀ {l : List (Fin n)} {f : Option (Fin n)},
      (∀ x ∈ l, (h' x).tail = (h x).tail) → IsChain h f l → IsChain h' f l := by
  intro l
  induction l with
  | nil =>
    intro f _ hc
    cases f with
    | none => exact trivial
    | some p => exact hc.elim
  | cons q l ih =>
    intro f hl hc
    cases f with
    | none => exact hc.elim
    | some p =>
      refine ⟨hc.1, ?_⟩
      rw [hl q (List.mem_cons_self q l)]
      exact ih (fun x hx => hl x (List.mem_cons_of_mem q hx)) hc.2

/-- From a given head reference following `tail` links determines the chain
uniquely. -/
theorem IsChain_unique {h : Fin n → Obj n} :
    ∀ {l l' : List (Fin n)} {f : Option (Fin n)},
      IsChain h f l → IsChain h f l' → l = l' := by
  intro l
  induction l with
  | nil =>
    intro l' f hc hc'
    rw [IsChain_nil hc] at hc'
    cases l' with
    | nil => rfl
    | cons q l' => exact hc'.elim
  | cons q l ih =>
    intro l' f hc hc'
    obtain ⟨rfl, hrest⟩ := IsChain_cons hc
    cases l' with
    | nil => exact absurd (IsChain_nil hc') (by simp)
    | cons q' l'2 =>
      obtain ⟨hq, hrest'⟩ := IsChain_cons hc'
      obtain rfl : q = q' := by injection hq
      rw [ih hrest hrest']

/-! ### The order in which the sweep pushes slots -/

/-- The unmarked slots of `h` with index in `[i, i + fuel)`, in ascending
order: the order in which the sweep loop pushes them. -/
def pendingFrom (h : Fin n → Obj n) : ℕ → ℕ → List (Fin n)
  | 0, _ => []
  | fuel + 1, i =>
    if hi : i < n then
      if (h ⟨i, hi⟩).marked then pendingFrom h fuel (i + 1)
      else ⟨i, hi⟩ :: pendingFrom h fuel (i + 1)
    else []

theorem pendingFrom_succ_marked {h : Fin n → Obj n} {f i : ℕ} (hi : i < n)
    (hm : (h ⟨i, hi⟩).marked = true) :
    pendingFrom h (f + 1) i = pendingFrom h f (i + 1) := by
  conv_lhs => unfold pendingFrom
  rw [dif_pos hi, if_pos hm]

theorem pendingFrom_succ_unmarked {h : Fin n → Obj n} {f i : ℕ} (hi : i < n)
    (hm : (h ⟨i, hi⟩).marked = false) :
    pendingFrom h (f + 1) i = ⟨i, hi⟩ :: pendingFrom h f (i + 1) := by
  conv_lhs => unfold pendingFrom
  rw [dif_pos hi, if_neg (by rw [hm]; exact Bool.false_ne_true)]

theorem pendingFrom_stop {h : Fin n → Obj n} {f i : ℕ} (hi : ¬ i < n) :
    pendingFrom h (f + 1) i = [] := by
  unfold pendingFrom
  rw [dif_neg hi]

theorem pendingFrom_congr {h h' : Fin n → Obj n}
    (hm : ∀ j, (h' j).marked = (h j).marked) :
    ∀ (fuel i : ℕ), pendingFrom h' fuel i = pendingFrom h fuel i := by
  intro fuel
  induction fuel with
  | zero => intro i; rfl
  | succ f ih =>
    intro i
    by_cases hi : i < n
    · rcases Bool.eq_false_or_eq_true (h ⟨i, hi⟩).marked with hmk | hmk
      · rw [pendingFrom_succ_marked hi hmk,
          pendingFrom_succ_marked hi ((hm ⟨i, hi⟩).trans hmk), ih]
      · rw [pendingFrom_succ_unmarked hi hmk,
          pendingFrom_succ_unmarked hi ((hm ⟨i, hi⟩).trans hmk), ih]
    · rw [pendingFrom_stop hi, pendingFrom_stop hi]

theorem mem_pendingFrom {h : Fin n → Obj n} :
    ∀ (fuel i : ℕ) (x : Fin n),
      x ∈ pendingFrom h fuel i ↔
        i ≤ x.val ∧ x.val < i + fuel ∧ (h x).marked = false := by
  intro fuel
  induction fuel with
  | zero =>
    intro i x
    simp only [pendingFrom, List.not_mem_nil, false_iff]
    rintro ⟨h1, h2, -⟩
    omega
  | succ f ih =>
    intro i x
    by_cases hi : i < n
    · rcases Bool.eq_false_or_eq_true (h ⟨i, hi⟩).marked with hmk | hmk
      · rw [pendingFrom_succ_marked hi hmk, ih (i + 1) x]
        constructor
        · rintro ⟨h1, h2, h3⟩
          exact ⟨by omega, by omega, h3⟩
        · rintro ⟨h1, h2, h3⟩
          rcases Nat.eq_or_lt_of_le h1 with he | hlt
          · have hx : x = ⟨i, hi⟩ := Fin.ext he.symm
            rw [hx] at h3
            rw [h3] at hmk
            exact absurd hmk Bool.false_ne_true
          · exact ⟨hlt, by omega, h3⟩
      · rw [pendingFrom_succ_unmarked hi hmk]
        simp only [List.mem_cons, ih (i + 1) x]
        constructor
        · rintro (rfl | ⟨h1, h2, h3⟩)
          · exact ⟨Nat.le_refl i, Nat.lt_succ_of_le (Nat.le_add_right i f), hmk⟩
          · exact ⟨by omega, by omega, h3⟩
        · rintro ⟨h1, h2, h3⟩
          rcases Nat.eq_or_lt_of_le h1 with he | hlt
          · exact Or.inl (Fin.ext he.symm)
          · exact Or.inr ⟨hlt, by omega, h3⟩
    · rw [pendingFrom_stop hi]
      simp only [List.not_mem_nil, false_iff]
      rintro ⟨h1, -, -⟩
      exact absurd (Nat.lt_of_le_of_lt h1 x.isLt) hi

theorem pendingFrom_nodup {h : Fin n → Obj n} :
    ∀ (fuel i : ℕ), (pendingFrom h fuel i).Nodup := by
  intro fuel
  induction fuel with
  | zero => intro i; exact List.nodup_nil
  | succ f ih =>
    intro i
    by_cases hi : i < n
    · rcases Bool.eq_false_or_eq_true (h ⟨i, hi⟩).marked with hmk | hmk
      · rw [pendingFrom_succ_marked hi hmk]
        exact ih (i + 1)
      · rw [pendingFrom_succ_unmarked hi hmk]
        refine List.Nodup.cons ?_ (ih (i + 1))
        intro hmem
        have hmm := (mem_pendingFrom f (i + 1) _).mp hmem
        have hv : ((⟨i, hi⟩ : Fin n) : ℕ) = i := rfl
        omega
    · rw [pendingFrom_stop hi]
      exact List.nodup_nil

/-! ### The sweep loop -/

theorem loopFrom_zero (f : GC n → Fin n → GC n) (i : ℕ) (s : GC n) :
    loopFrom f 0 i s = s := rfl

theorem loopFrom_succ_lt (f : GC n → Fin n → GC n) {fuel i : ℕ} (hi : i < n) (s : GC n) :
    loopFrom f (fuel + 1) i s = loopFrom f fuel (i + 1) (f s ⟨i, hi⟩) := by
  conv_lhs => unfold loopFrom
  rw [dif_pos hi]

theorem add_heap_ne (t : GC n) {p j : Fin n} (hj : j ≠ p) :
    (add_to_free_list t p).heap j = t.heap j :=
  Function.update_noteq hj _ _

theorem add_heap_self (t : GC n) (p : Fin n) :
    (add_to_free_list t p).heap p = { t.heap p with tail := t.free_list } :=
  Function.update_same _ _ _

theorem add_marked (t : GC n) (p j : Fin n) :
    ((add_to_free_list t p).heap j).marked = (t.heap j).marked := by
  rcases eq_or_ne j p with rfl | hj
  · rw [add_heap_self]
  · rw [add_heap_ne t hj]

theorem add_head (t : GC n) (p j : Fin n) :
    ((add_to_free_list t p).heap j).head = (t.heap j).head := by
  rcases eq_or_ne j p with rfl | hj
  · rw [add_heap_self]
  · rw [add_heap_ne t hj]

/-- Full characterization of the sweep loop started at index `i` with
`i + fuel = n`: the root is untouched, mark bits and `head` fields are
untouched, `tail` fields of marked or already-processed slots are untouched,
and the free list is extended in front with the unmarked slots of
`[i, n)`, pushed in ascending order. -/
theorem sweepFrom_spec :
    ∀ (fuel i : ℕ) (t : GC n), i + fuel = n →
      (loopFrom sweepStep fuel i t).root = t.root ∧
      (∀ j, ((loopFrom sweepStep fuel i t).heap j).marked = (t.heap j).marked) ∧
      (∀ j, ((loopFrom sweepStep fuel i t).heap j).head = (t.heap j).head) ∧
      (∀ j : Fin n, ((t.heap j).marked = true ∨ j.val < i) →
        ((loopFrom sweepStep fuel i t).heap j).tail = (t.heap j).tail) ∧
      (∀ l, IsChain t.heap t.free_list l → (∀ x ∈ l, x.val < i) →
        IsChain (loopFrom sweepStep fuel i t).heap
          (loopFrom sweepStep fuel i t).free_list
          ((pendingFrom t.heap fuel i).reverse ++ l)) := by
  intro fuel
  induction fuel with
  | zero =>
    intro i t _
    refine ⟨rfl, fun j => rfl, fun j => rfl, fun j _ => rfl, ?_⟩
    intro l hc _
    rw [loopFrom_zero]
    simpa [pendingFrom] using hc
  | succ f ih =>
    intro i t hin
    have hi : i < n := by omega
    rw [loopFrom_succ_lt sweepStep hi]
    rcases Bool.eq_false_or_eq_true (t.heap ⟨i, hi⟩).marked with hm | hm
    · -- marked slot: the loop skips it
      have hstep : sweepStep t ⟨i, hi⟩ = t := by
        unfold sweepStep
        rw [if_pos hm]
      rw [hstep]
      obtain ⟨h1, h2, h3, h4, h5⟩ := ih (i + 1) t (by omega)
      refine ⟨h1, h2, h3, ?_, ?_⟩
      · intro j hj
        refine h4 j ?_
        rcases hj with hj | hj
        · exact Or.inl hj
        · exact Or.inr (by omega)
      · intro l hc hl
        rw [pendingFrom_succ_marked hi hm]
        exact h5 l hc (by intro x hx; have := hl x hx; omega)
    · -- unmarked slot: it is pushed onto the free list
      have hstep : sweepStep t ⟨i, hi⟩ = add_to_free_list t ⟨i, hi⟩ := by
        unfold sweepStep
        rw [if_neg (by rw [hm]; exact Bool.false_ne_true)]
      rw [hstep]
      obtain ⟨h1, h2, h3, h4, h5⟩ := ih (i + 1) (add_to_free_list t ⟨i, hi⟩) (by omega)
      have haddm : ∀ j, ((add_to_free_list t ⟨i, hi⟩).heap j).marked = (t.heap j).marked :=
        add_marked t ⟨i, hi⟩
      have haddh : ∀ j, ((add_to_free_list t ⟨i, hi⟩).heap j).head = (t.heap j).head :=
        add_head t ⟨i, hi⟩
      refine ⟨h1, fun j => (h2 j).trans (haddm j), fun j => (h3 j).trans (haddh j), ?_, ?_⟩
      · intro j hj
        have hjne : j ≠ ⟨i, hi⟩ := by
          rintro rfl
          rcases hj with hj | hj
          · rw [hj] at hm
            exact Bool.false_ne_true hm.symm
          · exact absurd hj (Nat.lt_irrefl i)
        have heq : (add_to_free_list t ⟨i, hi⟩).heap j = t.heap j := add_heap_ne t hjne
        have := h4 j (by
          rcases hj with hj | hj
          · exact Or.inl ((haddm j).trans hj)
          · exact Or.inr (by omega))
        rw [this, heq]
      · intro l hc hl
        have hlne : ∀ x ∈ l, x ≠ ⟨i, hi⟩ := by
          intro x hx
          have hxi := hl x hx
          intro hxe
          rw [hxe] at hxi
          exact absurd hxi (Nat.lt_irrefl i)
        have hc1 : IsChain (add_to_free_list t ⟨i, hi⟩).heap
            (add_to_free_list t ⟨i, hi⟩).free_list (⟨i, hi⟩ :: l) := by
          refine ⟨rfl, ?_⟩
          rw [add_heap_self]
          exact IsChain_congr
            (fun x hx => congrArg Obj.tail (add_heap_ne t (hlne x hx))) hc
        have hres := h5 (⟨i, hi⟩ :: l) hc1 (by
          intro x hx
          rcases List.mem_cons.mp hx with rfl | hx
          · exact Nat.lt_succ_self i
          · have := hl x hx; omega)
        rw [pendingFrom_congr haddm] at hres
        rw [pendingFrom_succ_unmarked hi hm, List.reverse_cons, List.append_assoc,
          List.singleton_append]
        exact hres

/-! ### The collector as a whole -/

/-- The heap right after the mark phase of a collection: mark bits cleared,
then `mark(root)` run. -/
def postMarkHeap (s : GC n) : Fin n → Obj n :=
  markFuel (n + 1) (clearMarks s.heap) s.root

/-- The slots the sweep pushes, in push order (ascending index over the
unmarked slots); the rebuilt free list is their reversal. -/
def sweepOrder (s : GC n) : List (Fin n) :=
  (pendingFrom (postMarkHeap s) n 0).reverse

theorem collect_eq (s : GC n) :
    collect s = loopFrom sweepStep n 0
      { heap := postMarkHeap s, root := s.root, free_list := none } := rfl

theorem clearMarks_fields (h : Fin n → Obj n) :
    ∀ i, (clearMarks h i).head = (h i).head ∧ (clearMarks h i).tail = (h i).tail :=
  fun _ => ⟨rfl, rfl⟩

theorem unmarkedCount_clearMarks (h : Fin n → Obj n) :
    unmarkedCount (clearMarks h) = n := by
  unfold unmarkedCount
  rw [Finset.filter_true_of_mem (fun i _ => by simp [clearMarks]), Finset.card_univ,
    Fintype.card_fin]

theorem postMarkHeap_fields (s : GC n) :
    ∀ i, ((postMarkHeap s) i).head = (s.heap i).head ∧
      ((postMarkHeap s) i).tail = (s.heap i).tail := by
  intro i
  have h1 := markFuel_fields (n + 1) (clearMarks s.heap) s.root i
  have h2 := clearMarks_fields s.heap i
  exact ⟨h1.1.trans h2.1, h1.2.trans h2.2⟩

/-- After the mark phase, a slot is marked exactly when it is reachable from
the root. -/
theorem postMarkHeap_marked_iff (s : GC n) (i : Fin n) :
    ((postMarkHeap s) i).marked = true ↔ Reach s.heap s.root i := by
  have hedge : edge (clearMarks s.heap) = edge s.heap :=
    edge_congr (clearMarks_fields s.heap)
  cases hr : s.root with
  | none =>
    unfold postMarkHeap
    rw [hr, markFuel_none]
    constructor
    · intro hmm
      exact absurd hmm (by simp [clearMarks])
    · intro hre
      exact hre.elim
  | some r =>
    constructor
    · intro hmm
      rcases markFuel_sound (n + 1) (clearMarks s.heap) s.root i hmm with hmc | ⟨r', hr', hrtg⟩
      · exact absurd hmc (by simp [clearMarks])
      · rw [hr] at hr'
        obtain rfl : r = r' := by injection hr'
        rw [hedge] at hrtg
        exact hrtg
    · intro hre
      unfold postMarkHeap
      rw [hr]
      refine markFuel_complete (fun j => rfl) ?_ ?_
      · rw [unmarkedCount_clearMarks]
        exact Nat.lt_succ_self n
      · rw [hedge]
        exact hre

theorem collect_root (s : GC n) : (collect s).root = s.root := by
  rw [collect_eq]
  exact (sweepFrom_spec n 0 _ (Nat.zero_add n)).1

theorem collect_marked_iff (s : GC n) (i : Fin n) :
    ((collect s).heap i).marked = true ↔ Reach s.heap s.root i := by
  rw [collect_eq]
  rw [(sweepFrom_spec n 0 _ (Nat.zero_add n)).2.1 i]
  exact postMarkHeap_marked_iff s i

theorem collect_head (s : GC n) (i : Fin n) :
    ((collect s).heap i).head = (s.heap i).head := by
  rw [collect_eq]
  rw [(sweepFrom_spec n 0 _ (Nat.zero_add n)).2.2.1 i]
  exact (postMarkHeap_fields s i).1

theorem collect_tail_of_reach (s : GC n) {i : Fin n}
    (hi : Reach s.heap s.root i) :
    ((collect s).heap i).tail = (s.heap i).tail := by
  rw [collect_eq]
  rw [(sweepFrom_spec n 0 _ (Nat.zero_add n)).2.2.2.1 i
    (Or.inl ((postMarkHeap_marked_iff s i).mpr hi))]
  exact (postMarkHeap_fields s i).2

theorem collect_marked_tail (s : GC n) {i : Fin n}
    (hi : ((postMarkHeap s) i).marked = true) :
    ((collect s).heap i).tail = (s.heap i).tail :=
  collect_tail_of_reach s ((postMarkHeap_marked_iff s i).mp hi)

/-- The rebuilt free list after a collection is exactly the unmarked slots,
pushed in ascending index order. -/
theorem collect_chain (s : GC n) :
    IsChain (collect s).heap (collect s).free_list (sweepOrder s) := by
  rw [collect_eq]
  have := (sweepFrom_spec n 0
    { heap := postMarkHeap s, root := s.root, free_list := none }
    (Nat.zero_add n)).2.2.2.2 [] trivial (by intro x hx; exact absurd hx (List.not_mem_nil x))
  rw [List.append_nil] at this
  exact this

theorem mem_sweepOrder (s : GC n) (i : Fin n) :
    i ∈ sweepOrder s ↔ ¬ Reach s.heap s.root i := by
  unfold sweepOrder
  rw [List.mem_reverse, mem_pendingFrom]
  constructor
  · rintro ⟨-, -, hm⟩ hre
    rw [(postMarkHeap_marked_iff s i).mpr hre] at hm
    exact Bool.false_ne_true hm.symm
  · intro hre
    refine ⟨Nat.zero_le _, by simp [i.isLt], ?_⟩
    rcases Bool.eq_false_or_eq_true ((postMarkHeap s) i).marked with hm | hm
    · exact absurd ((postMarkHeap_marked_iff s i).mp hm) hre
    · exact hm

theorem sweepOrder_nodup (s : GC n) : (sweepOrder s).Nodup :=
  List.nodup_reverse.mpr (pendingFrom_nodup n 0)

/-! ### Popping the free list -/

theorem popFree_of_none {s : GC n} (hs : s.free_list = none) :
    popFree s = (none, s) := by
  unfold popFree
  rw [hs]

theorem popFree_of_some {s : GC n} {p : Fin n} (hp : s.free_list = some p) :
    popFree s =
      (some p,
       { heap := Function.update s.heap p { s.heap p with head := none, tail := none }
         root := s.root
         free_list := (s.heap p).tail }) := by
  unfold popFree
  rw [hp]

theorem allocate_of_empty {s : GC n} (hs : s.free_list = none) :
    allocate s = popFree (collect s) := by
  unfold allocate
  rw [if_pos hs]

theorem allocate_of_nonempty {s : GC n} {p : Fin n} (hp : s.free_list = some p) :
    allocate s = popFree s := by
  unfold allocate
  rw [if_neg (by rw [hp]; exact Option.some_ne_none p)]

/-- Popping from a free list whose chain is `p :: l` yields `p` with both
fields nulled, leaves every other slot untouched, and leaves `l` as the
remaining chain. -/
theorem popFree_cons {s : GC n} {p : Fin n} {l : List (Fin n)}
    (hc : IsChain s.heap s.free_list (p :: l)) (hp : p ∉ l) :
    (popFree s).1 = some p ∧
    (popFree s).2.root = s.root ∧
    IsChain (popFree s).2.heap (popFree s).2.free_list l ∧
    (∀ j, j ≠ p → (popFree s).2.heap j = s.heap j) ∧
    (popFree s).2.heap p = { head := none, tail := none, marked := (s.heap p).marked } := by
  obtain ⟨hf, hrest⟩ := IsChain_cons hc
  rw [popFree_of_some hf]
  refine ⟨rfl, rfl, ?_, ?_, ?_⟩
  · exact IsChain_congr
      (fun x hx => congrArg Obj.tail
        (Function.update_noteq (by rintro rfl; exact hp hx) _ _)) hrest
  · intro j hj
    exact Function.update_noteq hj _ _
  · exact Function.update_same _ _ _

theorem iterAlloc_fst_succ (k : ℕ) (s : GC n) :
    (iterAlloc (k + 1) s).1 = (allocate s).1 :: (iterAlloc k (allocate s).2).1 := rfl

theorem iterAlloc_snd_succ (k : ℕ) (s : GC n) :
    (iterAlloc (k + 1) s).2 = (iterAlloc k (allocate s).2).2 := rfl

/-- While the free list is nonempty, successive `allocate` calls pop its
chain in order, with no collection. -/
theorem iterAlloc_chain :
    ∀ (l : List (Fin n)) (s : GC n), IsChain s.heap s.free_list l → l.Nodup →
      (iterAlloc l.length s).1 = l.map some := by
  intro l
  induction l with
  | nil => intro s _ _; rfl
  | cons p l ih =>
    intro s hc hnd
    obtain ⟨hf, -⟩ := IsChain_cons hc
    obtain ⟨h1, -, h3, -, -⟩ := popFree_cons hc (List.nodup_cons.mp hnd).1
    rw [List.length_cons, iterAlloc_fst_succ, allocate_of_nonempty hf, h1,
      List.map_cons]
    rw [ih _ h3 (List.nodup_cons.mp hnd).2]

/-! ### Reachability depends only on the reachable part of the heap -/

theorem rtg_congr {h h' : Fin n → Obj n} {r0 : Fin n}
    (hagree : ∀ i, Relation.ReflTransGen (edge h) r0 i →
      (h' i).head = (h i).head ∧ (h' i).tail = (h i).tail) :
    ∀ j, Relation.ReflTransGen (edge h) r0 j →
      Relation.ReflTransGen (edge h') r0 j := by
  intro j hj
  induction hj with
  | refl => exact Relation.ReflTransGen.refl
  | tail hab hbc ih =>
    refine Relation.ReflTransGen.tail ih ?_
    have hb := hagree _ hab
    rcases hbc with hd | tl
    · exact Or.inl (hb.1.trans hd)
    · exact Or.inr (hb.2.trans tl)

theorem rtg_congr_rev {h h' : Fin n → Obj n} {r0 : Fin n}
    (hagree : ∀ i, Relation.ReflTransGen (edge h) r0 i →
      (h' i).head = (h i).head ∧ (h' i).tail = (h i).tail) :
    ∀ j, Relation.ReflTransGen (edge h') r0 j →
      Relation.ReflTransGen (edge h) r0 j := by
  intro j hj
  induction hj with
  | refl => exact Relation.ReflTransGen.refl
  | tail hab hbc ih =>
    refine Relation.ReflTransGen.tail ih ?_
    have hb := hagree _ ih
    rcases hbc with hd | tl
    · exact Or.inl (hb.1.symm.trans hd)
    · exact Or.inr (hb.2.symm.trans tl)

/-- Two heaps that agree on every slot reachable from `r` in the first have
the same reachable set from `r`. -/
theorem Reach_congr {h h' : Fin n → Obj n} {r : Option (Fin n)}
    (hagree : ∀ i, Reach h r i →
      (h' i).head = (h i).head ∧ (h' i).tail = (h i).tail) :
    ∀ j, Reach h r j ↔ Reach h' r j := by
  cases r with
  | none => intro j; exact Iff.rfl
  | some r0 => exact fun j => ⟨rtg_congr hagree j, rtg_congr_rev hagree j⟩

/-! ### The free-list well-formedness invariant -/

/-- The free-list invariant: the free list is a proper null-terminated chain
with no duplicates, the root does not point into it, and no slot outside it
has a reference field pointing into it. -/
def WF (s : GC n) : Prop :=
  ∃ l : List (Fin n),
    IsChain s.heap s.free_list l ∧ l.Nodup ∧
    (∀ r, s.root = some r → r ∉ l) ∧
    (∀ i : Fin n, i ∉ l → ∀ j ∈ l,
      (s.heap i).head ≠ some j ∧ (s.heap i).tail ≠ some j)

/-- Holds when `v` is a reference the client may legitimately write: null, or a pointer
to a slot that is not on the free list. -/
def OffFree (s : GC n) (v : Option (Fin n)) : Prop :=
  ∀ l, IsChain s.heap s.free_list l → ∀ b, v = some b → b ∉ l

theorem reach_step {h : Fin n → Obj n} {r : Option (Fin n)} {i j : Fin n}
    (hi : Reach h r i) (he : edge h i j) : Reach h r j := by
  cases r with
  | none => exact hi.elim
  | some r0 => exact Relation.ReflTransGen.tail hi he

/-- Under the invariant, no slot on the free list is reachable from the
root. -/
theorem wf_reach_disjoint {s : GC n} (hwf : WF s) {l : List (Fin n)}
    (hl : IsChain s.heap s.free_list l) :
    ∀ j ∈ l, ¬ Reach s.heap s.root j := by
  obtain ⟨l0, hc0, hnd0, hroot0, hclos0⟩ := hwf
  have hll : l = l0 := IsChain_unique hl hc0
  subst hll
  suffices hsuff : ∀ x, Reach s.heap s.root x → x ∉ l by
    exact fun j hj hre => hsuff j hre hj
  intro x hx
  cases hr : s.root with
  | none => rw [hr] at hx; exact hx.elim
  | some r0 =>
    rw [hr] at hx
    have hx' : Relation.ReflTransGen (edge s.heap) r0 x := hx
    clear hx
    induction hx' with
    | refl => exact hroot0 r0 hr
    | tail hab hbc ih =>
      intro hcl
      rcases hbc with hd | tl
      · exact (hclos0 _ ih _ hcl).1 hd
      · exact (hclos0 _ ih _ hcl).2 tl

theorem wf_popFree {s : GC n} (hwf : WF s) : WF (popFree s).2 := by
  obtain ⟨l, hc, hnd, hroot, hclos⟩ := hwf
  cases l with
  | nil =>
    rw [popFree_of_none (IsChain_nil hc)]
    exact ⟨[], hc, hnd, hroot, hclos⟩
  | cons p l' =>
    obtain ⟨h1, h2, h3, h4, h5⟩ := popFree_cons hc (List.nodup_cons.mp hnd).1
    refine ⟨l', h3, (List.nodup_cons.mp hnd).2, ?_, ?_⟩
    · intro r hr
      rw [h2] at hr
      exact fun hrl => hroot r hr (List.mem_cons_of_mem p hrl)
    · intro i hil j hjl
      rcases eq_or_ne i p with rfl | hip
      · rw [h5]
        simp
      · rw [h4 i hip]
        refine hclos i ?_ j (List.mem_cons_of_mem p hjl)
        intro hmem
        rcases List.mem_cons.mp hmem with rfl | hmem
        · exact hip rfl
        · exact hil hmem

theorem wf_collect (s : GC n) : WF (collect s) := by
  refine ⟨sweepOrder s, collect_chain s, sweepOrder_nodup s, ?_, ?_⟩
  · intro r hr hrl
    have hsr : s.root = some r := by rw [← collect_root s]; exact hr
    have hre : Reach s.heap s.root r := by
      rw [hsr]
      exact Relation.ReflTransGen.refl
    exact (mem_sweepOrder s r).mp hrl hre
  · intro i hil j hjl
    have hri : Reach s.heap s.root i := by
      by_contra hni
      exact hil ((mem_sweepOrder s i).mpr hni)
    have hrj : ¬ Reach s.heap s.root j := (mem_sweepOrder s j).mp hjl
    constructor
    · intro hcon
      rw [collect_head] at hcon
      exact hrj (reach_step hri (Or.inl hcon))
    · intro hcon
      rw [collect_tail_of_reach s hri] at hcon
      exact hrj (reach_step hri (Or.inr hcon))

theorem wf_allocate {s : GC n} (hwf : WF s) : WF (allocate s).2 := by
  by_cases hs : s.free_list = none
  · rw [allocate_of_empty hs]
    exact wf_popFree (wf_collect s)
  · obtain ⟨p, hp⟩ := Option.ne_none_iff_exists'.mp hs
    rw [allocate_of_nonempty hp]
    exact wf_popFree hwf

theorem wf_setRoot {s : GC n} {v : Option (Fin n)} (hwf : WF s)
    (hv : OffFree s v) : WF (setRoot s v) := by
  obtain ⟨l, hc, hnd, hroot, hclos⟩ := hwf
  exact ⟨l, hc, hnd, fun r hr => hv l hc r hr, hclos⟩

theorem setHead_tail_eq (s : GC n) (a : Fin n) (v : Option (Fin n)) (x : Fin n) :
    ((setHead s a v).heap x).tail = (s.heap x).tail := by
  show (Function.update s.heap a { s.heap a with head := v } x).tail = (s.heap x).tail
  rcases eq_or_ne x a with rfl | hx
  · rw [Function.update_same]
  · rw [Function.update_noteq hx]

theorem setHead_head_self (s : GC n) (a : Fin n) (v : Option (Fin n)) :
    ((setHead s a v).heap a).head = v := by
  show (Function.update s.heap a { s.heap a with head := v } a).head = v
  rw [Function.update_same]

theorem wf_setHead {s : GC n} {a : Fin n} {v : Option (Fin n)} (hwf : WF s)
    (hv : OffFree s v) : WF (setHead s a v) := by
  obtain ⟨l, hc, hnd, hroot, hclos⟩ := hwf
  refine ⟨l, IsChain_congr (fun x _ => setHead_tail_eq s a v x) hc, hnd, hroot, ?_⟩
  intro i hil j hjl
  rcases eq_or_ne i a with rfl | hia
  · constructor
    · rw [setHead_head_self]
      intro hcon
      exact hv l hc j hcon hjl
    · rw [setHead_tail_eq]
      exact (hclos i hil j hjl).2
  · have heq : (setHead s a v).heap i = s.heap i := Function.update_noteq hia _ _
    rw [heq]
    exact hclos i hil j hjl

theorem setTail_head_eq (s : GC n) (a : Fin n) (v : Option (Fin n)) (x : Fin n) :
    ((setTail s a v).heap x).head = (s.heap x).head := by
  show (Function.update s.heap a { s.heap a with tail := v } x).head = (s.heap x).head
  rcases eq_or_ne x a with rfl | hx
  · rw [Function.update_same]
  · rw [Function.update_noteq hx]

theorem setTail_tail_self (s : GC n) (a : Fin n) (v : Option (Fin n)) :
    ((setTail s a v).heap a).tail = v := by
  show (Function.update s.heap a { s.heap a with tail := v } a).tail = v
  rw [Function.update_same]

theorem wf_setTail {s : GC n} {a : Fin n} {v : Option (Fin n)} (hwf : WF s)
    (ha : OffFree s (some a)) (hv : OffFree s v) : WF (setTail s a v) := by
  obtain ⟨l, hc, hnd, hroot, hclos⟩ := hwf
  have hal : a ∉ l := ha l hc a rfl
  refine ⟨l, IsChain_congr (fun x hx => congrArg Obj.tail
    (Function.update_noteq (by rintro rfl; exact hal hx) _ _)) hc, hnd, hroot, ?_⟩
  intro i hil j hjl
  rcases eq_or_ne i a with rfl | hia
  · constructor
    · rw [setTail_head_eq]
      exact (hclos i hil j hjl).1
    · rw [setTail_tail_self]
      intro hcon
      exact hv l hc j hcon hjl
  · have heq : (setTail s a v).heap i = s.heap i := Function.update_noteq hia _ _
    rw [heq]
    exact hclos i hil j hjl

/-- Running `init_heap` on an all-unmarked heap coincides with the sweep loop (the
sweep pushes exactly the unmarked slots, and here every slot is unmarked). -/
theorem init_eq_sweep_on_unmarked :
    ∀ (fuel i : ℕ) (t : GC n), (∀ j, (t.heap j).marked = false) →
      loopFrom add_to_free_list fuel i t = loopFrom sweepStep fuel i t := by
  intro fuel
  induction fuel with
  | zero => intro i t _; rfl
  | succ f ih =>
    intro i t hall
    by_cases hi : i < n
    · rw [loopFrom_succ_lt add_to_free_list hi, loopFrom_succ_lt sweepStep hi]
      have hstep : sweepStep t ⟨i, hi⟩ = add_to_free_list t ⟨i, hi⟩ := by
        unfold sweepStep
        rw [if_neg (by rw [hall ⟨i, hi⟩]; exact Bool.false_ne_true)]
      rw [hstep]
      exact ih (i + 1) _ (fun j => (add_marked t ⟨i, hi⟩ j).trans (hall j))
    · conv_lhs => unfold loopFrom
      conv_rhs => unfold loopFrom
      rw [dif_neg hi, dif_neg hi]

theorem wf_init : WF (init_heap (initState : GC n)) := by
  unfold init_heap
  rw [init_eq_sweep_on_unmarked n 0 initState (fun j => rfl)]
  obtain ⟨hroot, -, -, -, h5⟩ := sweepFrom_spec n 0 (initState : GC n) (Nat.zero_add n)
  have hchain := h5 [] trivial (fun x hx => absurd hx (List.not_mem_nil x))
  rw [List.append_nil] at hchain
  refine ⟨_, hchain, List.nodup_reverse.mpr (pendingFrom_nodup n 0), ?_, ?_⟩
  · intro r hr
    rw [hroot] at hr
    exact Option.noConfusion hr
  · intro i hil j hjl
    exfalso
    apply hil
    rw [List.mem_reverse, mem_pendingFrom]
    exact ⟨Nat.zero_le _, by simp [i.isLt], rfl⟩

/-- Conservation: free slots plus non-free slots account for all `n` slots. -/
theorem wf_conservation {s : GC n} (hwf : WF s) {l : List (Fin n)}
    (hl : IsChain s.heap s.free_list l) :
    l.length + ((Finset.univ : Finset (Fin n)).filter (fun i => i ∉ l)).card = n := by
  obtain ⟨l0, hc0, hnd0, -, -⟩ := hwf
  obtain rfl : l0 = l := IsChain_unique hc0 hl
  have h1 : l0.toFinset.card = l0.length := List.toFinset_card_of_nodup hnd0
  have h2 : ((Finset.univ : Finset (Fin n)).filter (fun i => i ∉ l0)) =
      Finset.univ \ l0.toFinset := by
    ext i
    simp [List.mem_toFinset]
  have h3 : l0.toFinset.card ≤ n := by
    have := Finset.card_le_univ l0.toFinset
    rwa [Fintype.card_fin] at this
  rw [h2, Finset.card_sdiff (Finset.subset_univ _), Finset.card_univ, Fintype.card_fin]
  omega

/-! ### Further helper lemmas used by the claim theorems -/

theorem no_edge_of_none {h : Fin n → Obj n} {i j : Fin n}
    (hh : (h i).head = none) (ht : (h i).tail = none) : ¬ edge h i j := by
  rintro (he | he)
  · rw [hh] at he
    exact Option.noConfusion he
  · rw [ht] at he
    exact Option.noConfusion he

theorem reach_only_self {h : Fin n → Obj n} {r x : Fin n}
    (hh : (h r).head = none) (ht : (h r).tail = none)
    (hx : Relation.ReflTransGen (edge h) r x) : x = r := by
  rcases Relation.ReflTransGen.cases_head hx with rfl | ⟨b, hb, -⟩
  · rfl
  · exact absurd hb (no_edge_of_none hh ht)

theorem sweepOrder_nil_of_all_reach {s : GC n}
    (hall : ∀ i, Reach s.heap s.root i) : sweepOrder s = [] :=
  List.eq_nil_iff_forall_not_mem.mpr
    (fun i hi => (mem_sweepOrder s i).mp hi (hall i))

theorem length_eq_card_of_nodup_allmem {l : List (Fin n)} (hnd : l.Nodup)
    (hall : ∀ i : Fin n, i ∈ l) : l.length = n := by
  have h1 : l.toFinset = Finset.univ := by
    ext i
    simp [List.mem_toFinset, hall i]
  have h2 := List.toFinset_card_of_nodup hnd
  rw [h1, Finset.card_univ, Fintype.card_fin] at h2
  exact h2.symm

/-! ### Claim theorems -/

/-- C2: `allocate` reports out-of-memory (returns `none`) exactly when the
free list is empty on entry and, after the full mark-then-sweep collection
from the current root, every slot is reachable from the root (equivalently,
marked); the outcome is an ordinary return value of the total function
`allocate`, never an abort. -/
theorem C2_allocate_none_iff (s : GC n) :
    (allocate s).1 = none ↔
      (s.free_list = none ∧ ∀ i, Reach s.heap s.root i) := by
  by_cases hs : s.free_list = none
  · rw [allocate_of_empty hs]
    constructor
    · intro hnone
      refine ⟨hs, ?_⟩
      have hfree : (collect s).free_list = none := by
        cases hcf : (collect s).free_list with
        | none => rfl
        | some p =>
          rw [popFree_of_some hcf] at hnone
          exact absurd hnone (by simp)
      have hnil : sweepOrder s = [] := by
        have hc := collect_chain s
        rw [hfree] at hc
        cases hso : sweepOrder s with
        | nil => rfl
        | cons q l => rw [hso] at hc; exact hc.elim
      intro i
      by_contra hni
      have hmem : i ∈ sweepOrder s := (mem_sweepOrder s i).mpr hni
      rw [hnil] at hmem
      exact List.not_mem_nil i hmem
    · rintro ⟨-, hall⟩
      have hfree : (collect s).free_list = none := by
        have hc := collect_chain s
        rw [sweepOrder_nil_of_all_reach hall] at hc
        exact IsChain_nil hc
      rw [popFree_of_none hfree]
  · obtain ⟨p, hp⟩ := Option.ne_none_iff_exists'.mp hs
    rw [allocate_of_nonempty hp, popFree_of_some hp]
    simp [hs]

/-- C3: the collection run inside `allocate` when the free list is empty
first clears every mark bit and only then marks from the current root — so
afterwards a slot is marked iff it is reachable from the root, with no stale
marks — and rebuilds the free list from scratch as exactly the unreachable
slots (including any slot that was free before), pushed in ascending index
order. -/
theorem C3_collect_steps (s : GC n) (hs : s.free_list = none) :
    (∀ i, ((collect s).heap i).marked = true ↔ Reach s.heap s.root i) ∧
    IsChain (collect s).heap (collect s).free_list (sweepOrder s) ∧
    (∀ i, i ∈ sweepOrder s ↔ ¬ Reach s.heap s.root i) ∧
    (sweepOrder s).Nodup ∧
    allocate s = popFree (collect s) :=
  ⟨collect_marked_iff s, collect_chain s, mem_sweepOrder s, sweepOrder_nodup s,
    allocate_of_empty hs⟩

/-- Witness for C3 at a concrete state (capacity 1, empty free list). -/
theorem C3_collect_steps_witness :
    (∀ i, ((collect (initState : GC 1)).heap i).marked = true ↔
      Reach (initState : GC 1).heap (initState : GC 1).root i) ∧
    IsChain (collect (initState : GC 1)).heap
      (collect (initState : GC 1)).free_list (sweepOrder (initState : GC 1)) ∧
    (∀ i, i ∈ sweepOrder (initState : GC 1) ↔
      ¬ Reach (initState : GC 1).heap (initState : GC 1).root i) ∧
    (sweepOrder (initState : GC 1)).Nodup ∧
    allocate (initState : GC 1) = popFree (collect (initState : GC 1)) :=
  C3_collect_steps (initState : GC 1) rfl

/-- C6: every successful `allocate` returns the slot popped from the head of
the free list — the entry free list on the fast path, the rebuilt one after a
same-call collection — and both reference fields of the returned slot are
nulled. -/
theorem C6_allocate_some_spec (s : GC n) (p : Fin n)
    (hp : (allocate s).1 = some p) :
    (s.free_list = some p ∨ (s.free_list = none ∧ (collect s).free_list = some p)) ∧
    ((allocate s).2.heap p).head = none ∧
    ((allocate s).2.heap p).tail = none := by
  by_cases hs : s.free_list = none
  · rw [allocate_of_empty hs] at hp ⊢
    cases hcf : (collect s).free_list with
    | none =>
      rw [popFree_of_none hcf] at hp
      exact absurd hp (by simp)
    | some q =>
      rw [popFree_of_some hcf] at hp ⊢
      obtain rfl : q = p := by simpa using hp
      refine ⟨Or.inr ⟨hs, rfl⟩, ?_, ?_⟩
      · show (Function.update (collect s).heap q
          { (collect s).heap q with head := none, tail := none } q).head = none
        rw [Function.update_same]
      · show (Function.update (collect s).heap q
          { (collect s).heap q with head := none, tail := none } q).tail = none
        rw [Function.update_same]
  · obtain ⟨q, hq⟩ := Option.ne_none_iff_exists'.mp hs
    rw [allocate_of_nonempty hq] at hp ⊢
    rw [popFree_of_some hq] at hp ⊢
    obtain rfl : q = p := by simpa using hp
    refine ⟨Or.inl hq, ?_, ?_⟩
    · show (Function.update s.heap q
        { s.heap q with head := none, tail := none } q).head = none
      rw [Function.update_same]
    · show (Function.update s.heap q
        { s.heap q with head := none, tail := none } q).tail = none
      rw [Function.update_same]

/-- Concrete state for witnesses: capacity 1, slot 0 free, no root. -/
def wFree : GC 1 :=
  { heap := fun _ => ⟨none, some 0, false⟩, root := none, free_list := some 0 }

/-- Witness for C6: popping the one-slot free list of `wFree` returns slot 0
with both fields nulled (and the chain-or-collection disjunction holds). -/
theorem C6_allocate_some_spec_witness :
    (allocate wFree).1 = some 0 ∧
    ((wFree.free_list = some 0 ∨
      (wFree.free_list = none ∧ (collect wFree).free_list = some 0)) ∧
     ((allocate wFree).2.heap 0).head = none ∧
     ((allocate wFree).2.heap 0).tail = none) :=
  ⟨by decide, C6_allocate_some_spec wFree 0 (by decide)⟩

/-- C8: when the free list is nonempty on entry, no collection happens:
`allocate` returns the free-list head, advances the free list, nulls the two
fields of the returned slot (leaving even its mark bit alone), and changes
nothing else — not the root, and not any other slot. -/
theorem C8_fast_path (s : GC n) (p : Fin n) (hp : s.free_list = some p) :
    (allocate s).1 = some p ∧
    (allocate s).2.root = s.root ∧
    (allocate s).2.free_list = (s.heap p).tail ∧
    (allocate s).2.heap p =
      { head := none, tail := none, marked := (s.heap p).marked } ∧
    (∀ i, i ≠ p → (allocate s).2.heap i = s.heap i) := by
  rw [allocate_of_nonempty hp, popFree_of_some hp]
  refine ⟨rfl, rfl, rfl, ?_, ?_⟩
  · exact Function.update_same _ _ _
  · intro i hi
    exact Function.update_noteq hi _ _

/-- Witness for C8 at the concrete state `wFree`. -/
theorem C8_fast_path_witness :
    (allocate wFree).1 = some 0 ∧
    (allocate wFree).2.root = wFree.root ∧
    (allocate wFree).2.free_list = (wFree.heap 0).tail ∧
    (allocate wFree).2.heap 0 =
      { head := none, tail := none, marked := (wFree.heap 0).marked } ∧
    (∀ i, i ≠ 0 → (allocate wFree).2.heap i = wFree.heap i) :=
  C8_fast_path wFree 0 (by decide)

/-- C5: `mark` terminates on every object graph: any two fuel bounds above
the number of unmarked slots give the same result, so the unbounded C
recursion is well defined; marking is monotone (a slot's bit is set at most
once and never cleared) and returns immediately on an already-marked slot
(the cycle-safety base case); a reachable self-cycle or mutual cycle
survives collection with both fields intact; and unreachable slots — cycle
members included — are put back on the free list by the next collection. -/
theorem C5_mark_termination_and_cycles :
    (∀ (f₁ f₂ : ℕ) (h : Fin n → Obj n) (p : Option (Fin n)),
      unmarkedCount h < f₁ → unmarkedCount h < f₂ →
        markFuel f₁ h p = markFuel f₂ h p) ∧
    (∀ (fuel : ℕ) (h : Fin n → Obj n) (p : Option (Fin n)) (i : Fin n),
      (h i).marked = true → (markFuel fuel h p i).marked = true) ∧
    (∀ (f : ℕ) (h : Fin n → Obj n) (p : Fin n),
      (h p).marked = true → markFuel (f + 1) h (some p) = h) ∧
    (∀ (s : GC n) (i : Fin n), s.root = some i →
      (s.heap i).head = some i → (s.heap i).tail = some i →
      ((collect s).heap i).head = some i ∧ ((collect s).heap i).tail = some i) ∧
    (∀ (s : GC n) (i j : Fin n), s.root = some i →
      (s.heap i).head = some j → (s.heap i).tail = some j →
      (s.heap j).head = some i → (s.heap j).tail = some i →
      ((collect s).heap i).head = some j ∧ ((collect s).heap i).tail = some j ∧
      ((collect s).heap j).head = some i ∧ ((collect s).heap j).tail = some i) ∧
    (∀ (s : GC n) (i : Fin n), ¬ Reach s.heap s.root i → i ∈ sweepOrder s) := by
  refine ⟨markFuel_stable, fun fuel h p i => markFuel_mono fuel h p,
    fun f h p hm => markFuel_succ_of_marked hm f, ?_, ?_, ?_⟩
  · intro s i hr hh ht
    have hre : Reach s.heap s.root i := by
      rw [hr]
      exact Relation.ReflTransGen.refl
    constructor
    · rw [collect_head]
      exact hh
    · rw [collect_tail_of_reach s hre]
      exact ht
  · intro s i j hr hij1 hij2 hji1 hji2
    have hri : Reach s.heap s.root i := by
      rw [hr]
      exact Relation.ReflTransGen.refl
    have hrj : Reach s.heap s.root j := reach_step hri (Or.inl hij1)
    refine ⟨?_, ?_, ?_, ?_⟩
    · rw [collect_head]; exact hij1
    · rw [collect_tail_of_reach s hri]; exact hij2
    · rw [collect_head]; exact hji1
    · rw [collect_tail_of_reach s hrj]; exact hji2
  · intro s i hni
    exact (mem_sweepOrder s i).mpr hni

/-- Concrete state for the C5 witness: capacity 2 with a reachable mutual
cycle (slots 0 and 1 point at each other, root is 0), free list empty. -/
def wCycle : GC 2 :=
  { heap := fun i => if i = 0 then ⟨some 1, some 1, false⟩ else ⟨some 0, some 0, false⟩
    root := some 0
    free_list := none }

/-- Witness for C5: fuel-stability at a concrete heap, the marked-slot early
return at a concrete heap, and survival of the concrete mutual cycle of
`wCycle` through a collection. -/
theorem C5_mark_termination_and_cycles_witness :
    markFuel 3 (wCycle.heap) (some 0) = markFuel 17 (wCycle.heap) (some 0) ∧
    (((collect wCycle).heap 0).head = some 1 ∧
     ((collect wCycle).heap 0).tail = some 1 ∧
     ((collect wCycle).heap 1).head = some 0 ∧
     ((collect wCycle).heap 1).tail = some 0) := by
  constructor
  · exact (C5_mark_termination_and_cycles (n := 2)).1 3 17 wCycle.heap (some 0)
      (by decide) (by decide)
  · exact (C5_mark_termination_and_cycles (n := 2)).2.2.2.2.1 wCycle 0 1 rfl
      (by decide) (by decide) (by decide) (by decide)

/-- Concrete state refuting C1 as literally stated (capacity 1): slot 0 is
the root and simultaneously the free-list head, and its `head` field points
to itself. -/
def badState : GC 1 :=
  { heap := fun _ => { head := some 0, tail := none, marked := false }
    root := some 0
    free_list := some 0 }

/-- Counterexample to C1 as stated over every heap state: in `badState` slot
0 is reachable from the root (it is the root), yet the `allocate` call —
which takes the fast path and pops slot 0 off the free list — clears its
`head` field, so the reachable object's fields are not preserved. -/
theorem C1_counterexample :
    Reach badState.heap badState.root 0 ∧
    ¬ (((allocate badState).2.heap 0).head = (badState.heap 0).head ∧
       ((allocate badState).2.heap 0).tail = (badState.heap 0).tail) :=
  ⟨Relation.ReflTransGen.refl, by decide⟩

/-- C1 amended: root protection holds for every heap state in which the
free-list head (if any) is not reachable from the root — the free-list
invariant the allocator itself maintains.  Under that proviso, every slot
reachable from the root when `allocate` is called keeps both its reference
fields, whether or not the call collects. -/
theorem C1_root_protection (s : GC n)
    (hfr : ∀ p, s.free_list = some p → ¬ Reach s.heap s.root p)
    (i : Fin n) (hi : Reach s.heap s.root i) :
    ((allocate s).2.heap i).head = (s.heap i).head ∧
    ((allocate s).2.heap i).tail = (s.heap i).tail := by
  by_cases hs : s.free_list = none
  · cases hcf : (collect s).free_list with
    | none =>
      have heq : (allocate s).2 = collect s := by
        rw [allocate_of_empty hs, popFree_of_none hcf]
      rw [heq]
      exact ⟨collect_head s i, collect_tail_of_reach s hi⟩
    | some q =>
      have hq : ¬ Reach s.heap s.root q := by
        have hc := collect_chain s
        rw [hcf] at hc
        cases hso : sweepOrder s with
        | nil => rw [hso] at hc; exact hc.elim
        | cons q' l =>
          rw [hso] at hc
          obtain ⟨hqq, -⟩ := hc
          refine (mem_sweepOrder s q).mp ?_
          rw [hso, hqq]
          exact List.mem_cons_self q' l
      have hiq : i ≠ q := fun he => hq (he ▸ hi)
      have heq : (allocate s).2.heap i = (collect s).heap i := by
        rw [allocate_of_empty hs, popFree_of_some hcf]
        exact Function.update_noteq hiq _ _
      rw [heq]
      exact ⟨collect_head s i, collect_tail_of_reach s hi⟩
  · obtain ⟨p, hp⟩ := Option.ne_none_iff_exists'.mp hs
    have hip : i ≠ p := fun he => (hfr p hp) (he ▸ hi)
    have heq : (allocate s).2.heap i = s.heap i := by
      rw [allocate_of_nonempty hp, popFree_of_some hp]
      exact Function.update_noteq hip _ _
    rw [heq]
    exact ⟨rfl, rfl⟩

/-- Concrete state for the C1 witness: capacity 1, slot 0 rooted, free list
empty (so the call collects). -/
def wRooted : GC 1 :=
  { heap := fun _ => ⟨none, none, false⟩, root := some 0, free_list := none }

/-- Witness for C1 (amended): at `wRooted` the hypotheses hold — the free
list is empty, and slot 0 is the root — and the rooted slot's fields survive
the collecting `allocate` call. -/
theorem C1_root_protection_witness :
    ((allocate wRooted).2.heap 0).head = (wRooted.heap 0).head ∧
    ((allocate wRooted).2.heap 0).tail = (wRooted.heap 0).tail :=
  C1_root_protection wRooted (fun _ hp => Option.noConfusion hp) 0
    Relation.ReflTransGen.refl

/-! ### Exhaustion and recovery -/

/-- When every slot is reachable and the free list is empty, `allocate`
collects, finds nothing to free, returns `none`, and leaves root, free list
and every slot's reference fields unchanged. -/
theorem alloc_full_reachable (s : GC n) (hall : ∀ i, Reach s.heap s.root i)
    (hs : s.free_list = none) :
    (allocate s).1 = none ∧
    (allocate s).2.root = s.root ∧
    (allocate s).2.free_list = none ∧
    (∀ i, ((allocate s).2.heap i).head = (s.heap i).head ∧
      ((allocate s).2.heap i).tail = (s.heap i).tail) := by
  have hfree : (collect s).free_list = none := by
    have hc := collect_chain s
    rw [sweepOrder_nil_of_all_reach hall] at hc
    exact IsChain_nil hc
  have heq : allocate s = (none, collect s) := by
    rw [allocate_of_empty hs, popFree_of_none hfree]
  rw [heq]
  exact ⟨rfl, collect_root s, hfree,
    fun i => ⟨collect_head s i, collect_tail_of_reach s (hall i)⟩⟩

theorem iterAlloc_full_replicate :
    ∀ (k : ℕ) (s : GC n), s.free_list = none → (∀ i, Reach s.heap s.root i) →
      (iterAlloc k s).1 = List.replicate k none := by
  intro k
  induction k with
  | zero => intro s _ _; rfl
  | succ m ih =>
    intro s hs hall
    obtain ⟨h1, h2, h3, h4⟩ := alloc_full_reachable s hall hs
    rw [iterAlloc_fst_succ, h1, List.replicate_succ]
    congr 1
    refine ih _ h3 ?_
    intro i
    rw [h2]
    exact (Reach_congr (fun j _ => h4 j) i).mp (hall i)

/-- With the root absent and the free list empty, the `n` next `allocate`
calls return every slot of the heap, each exactly once. -/
theorem iterAlloc_root_none (t : GC n) (hr : t.root = none)
    (ht : t.free_list = none) :
    (iterAlloc n t).1.length = n ∧
    (∀ r ∈ (iterAlloc n t).1, r ≠ none) ∧
    (∀ i : Fin n, some i ∈ (iterAlloc n t).1) := by
  have hallmem : ∀ i : Fin n, i ∈ sweepOrder t := fun i =>
    (mem_sweepOrder t i).mpr (by rw [hr]; exact fun hre => hre)
  have hnd := sweepOrder_nodup t
  have hlen : (sweepOrder t).length = n :=
    length_eq_card_of_nodup_allmem hnd hallmem
  cases hso : sweepOrder t with
  | nil =>
    obtain rfl : n = 0 := by rw [hso] at hlen; exact hlen.symm
    refine ⟨rfl, ?_, ?_⟩
    · intro r hrm
      exact absurd hrm (List.not_mem_nil r)
    · intro i
      exact i.elim0
  | cons p l' =>
    have hc := collect_chain t
    rw [hso] at hc hnd hlen
    obtain ⟨h1, -, h3, -, -⟩ := popFree_cons hc (List.nodup_cons.mp hnd).1
    have hn : n = l'.length + 1 := by
      rw [List.length_cons] at hlen
      omega
    have hgen : ∀ m : ℕ, m = l'.length + 1 →
        (iterAlloc m t).1 = some p :: l'.map some := by
      intro m hm
      subst hm
      rw [iterAlloc_fst_succ, allocate_of_empty ht, h1]
      congr 1
      exact iterAlloc_chain l' _ h3 (List.nodup_cons.mp hnd).2
    have hres := hgen n hn
    refine ⟨?_, ?_, ?_⟩
    · rw [hres, List.length_cons, List.length_map]
      exact hn.symm
    · intro r hrm
      rw [hres] at hrm
      rcases List.mem_cons.mp hrm with rfl | hrm
      · exact Option.some_ne_none p
      · obtain ⟨i, -, rfl⟩ := List.mem_map.mp hrm
        exact Option.some_ne_none i
    · intro i
      rw [hres]
      have hmem : i ∈ p :: l' := by rw [← hso]; exact hallmem i
      rcases List.mem_cons.mp hmem with rfl | hmem
      · exact List.mem_cons_self _ _
      · exact List.mem_cons_of_mem _ (List.mem_map_of_mem some hmem)

/-- C7: exhaustion and recovery.  While every slot is reachable from the
root and the free list is empty, every `allocate` call returns `none`; once
the client sets the root to absent, the next `n` calls all succeed and
together return every one of the `n` slots. -/
theorem C7_exhaustion_and_recovery :
    (∀ (s : GC n) (k : ℕ), s.free_list = none → (∀ i, Reach s.heap s.root i) →
      (iterAlloc k s).1 = List.replicate k none) ∧
    (∀ t : GC n, t.root = none → t.free_list = none →
      (∀ r ∈ (iterAlloc n t).1, r ≠ none) ∧
      (∀ i : Fin n, some i ∈ (iterAlloc n t).1)) ∧
    (∀ s : GC n, s.free_list = none → (∀ i, Reach s.heap s.root i) →
      (∀ r ∈ (iterAlloc n (setRoot (allocate s).2 none)).1, r ≠ none) ∧
      (∀ i : Fin n, some i ∈ (iterAlloc n (setRoot (allocate s).2 none)).1)) := by
  refine ⟨fun s k hs hall => iterAlloc_full_replicate k s hs hall,
    fun t hr ht => ⟨(iterAlloc_root_none t hr ht).2.1, (iterAlloc_root_none t hr ht).2.2⟩,
    ?_⟩
  intro s hs hall
  obtain ⟨-, -, h3, -⟩ := alloc_full_reachable s hall hs
  have hrec := iterAlloc_root_none (setRoot (allocate s).2 none) rfl h3
  exact ⟨hrec.2.1, hrec.2.2⟩

/-- Concrete state for the C7 witness: capacity 1, slot 0 rooted and
self-referential through `tail`, free list empty — the heap is full and
entirely reachable. -/
def wFull : GC 1 :=
  { heap := fun _ => ⟨none, some 0, false⟩, root := some 0, free_list := none }

/-- Witness for C7 at `wFull`: two allocations both fail while the full heap
is rooted, and after dropping the root, one allocation run returns slot 0. -/
theorem C7_exhaustion_and_recovery_witness :
    (iterAlloc 2 wFull).1 = List.replicate 2 none ∧
    (∀ i : Fin 1, some i ∈ (iterAlloc 1 (setRoot (allocate wFull).2 none)).1) := by
  have hall : ∀ i, Reach wFull.heap wFull.root i := by
    intro i
    have : i = 0 := Fin.ext (by omega)
    rw [this]
    exact Relation.ReflTransGen.refl
  exact ⟨(C7_exhaustion_and_recovery (n := 1)).1 wFull 2 rfl hall,
    ((C7_exhaustion_and_recovery (n := 1)).2.2 wFull rfl hall).2⟩

/-- C9: if the root is absent and the free list is empty, the single
collection inside one `allocate` call puts all `n` slots back on the free
list, the call itself succeeds, and the free list afterwards is a chain of
exactly `n - 1` slots. -/
theorem C9_recovery_in_one_call (s : GC n) (hr : s.root = none)
    (hs : s.free_list = none) (hn : 0 < n) :
    ((sweepOrder s).length = n ∧ ∀ i : Fin n, i ∈ sweepOrder s) ∧
    (∃ p, (allocate s).1 = some p) ∧
    (∃ l', IsChain (allocate s).2.heap (allocate s).2.free_list l' ∧
      l'.length = n - 1) := by
  have hallmem : ∀ i : Fin n, i ∈ sweepOrder s := fun i =>
    (mem_sweepOrder s i).mpr (by rw [hr]; exact fun hre => hre)
  have hnd := sweepOrder_nodup s
  have hlen : (sweepOrder s).length = n :=
    length_eq_card_of_nodup_allmem hnd hallmem
  refine ⟨⟨hlen, hallmem⟩, ?_⟩
  cases hso : sweepOrder s with
  | nil =>
    exfalso
    rw [hso, List.length_nil] at hlen
    omega
  | cons p l' =>
    have hc := collect_chain s
    rw [hso] at hc hnd hlen
    obtain ⟨h1, -, h3, -, -⟩ := popFree_cons hc (List.nodup_cons.mp hnd).1
    have hall' : allocate s = popFree (collect s) := allocate_of_empty hs
    refine ⟨⟨p, by rw [hall']; exact h1⟩, ⟨l', by rw [hall']; exact h3, ?_⟩⟩
    rw [List.length_cons] at hlen
    omega

/-- Witness for C9 at the concrete capacity-1 state with absent root and
empty free list. -/
theorem C9_recovery_in_one_call_witness :
    ((sweepOrder (initState : GC 1)).length = 1 ∧
      ∀ i : Fin 1, i ∈ sweepOrder (initState : GC 1)) ∧
    (∃ p, (allocate (initState : GC 1)).1 = some p) ∧
    (∃ l', IsChain (allocate (initState : GC 1)).2.heap
      (allocate (initState : GC 1)).2.free_list l' ∧ l'.length = 1 - 1) :=
  C9_recovery_in_one_call (initState : GC 1) rfl rfl Nat.one_pos

/-- One step of the single-garbage-slot scenario: the call collects, frees
exactly the one unreachable slot `u`, returns it, and restores a state
satisfying the same hypotheses. -/
theorem alloc_single_garbage_step (s : GC n) (u : Fin n)
    (hs : s.free_list = none) (hu : ¬ Reach s.heap s.root u)
    (hrest : ∀ j, j ≠ u → Reach s.heap s.root j) :
    (allocate s).1 = some u ∧
    (allocate s).2.free_list = none ∧
    (allocate s).2.root = s.root ∧
    (¬ Reach (allocate s).2.heap (allocate s).2.root u) ∧
    (∀ j, j ≠ u → Reach (allocate s).2.heap (allocate s).2.root j) := by
  have hmem : ∀ x, x ∈ sweepOrder s ↔ x = u := by
    intro x
    rw [mem_sweepOrder]
    constructor
    · intro hx
      by_contra hne
      exact hx (hrest x hne)
    · rintro rfl
      exact hu
  have hso : sweepOrder s = [u] := by
    cases hso1 : sweepOrder s with
    | nil =>
      have := (hmem u).mpr rfl
      rw [hso1] at this
      exact absurd this (List.not_mem_nil u)
    | cons q l =>
      have hq : q = u := (hmem q).mp (by rw [hso1]; exact List.mem_cons_self q l)
      subst hq
      cases l with
      | nil => rfl
      | cons b l2 =>
        have hb : b = q := (hmem b).mp
          (by rw [hso1]; exact List.mem_cons_of_mem q (List.mem_cons_self b l2))
        have hnd := sweepOrder_nodup s
        rw [hso1] at hnd
        exact absurd (hb ▸ List.mem_cons_self b l2) (List.nodup_cons.mp hnd).1
  have hc := collect_chain s
  rw [hso] at hc
  obtain ⟨h1, h2, h3, h4, -⟩ := popFree_cons hc (List.not_mem_nil u)
  have halloc : allocate s = popFree (collect s) := allocate_of_empty hs
  have hfree : (popFree (collect s)).2.free_list = none := IsChain_nil h3
  have hagree : ∀ j, Reach s.heap s.root j →
      ((popFree (collect s)).2.heap j).head = (s.heap j).head ∧
      ((popFree (collect s)).2.heap j).tail = (s.heap j).tail := by
    intro j hj
    have hju : j ≠ u := fun he => hu (he ▸ hj)
    rw [h4 j hju]
    exact ⟨collect_head s j, collect_tail_of_reach s hj⟩
  have hreach_iff := Reach_congr hagree
  have hroot2 : (popFree (collect s)).2.root = s.root := by
    rw [h2, collect_root]
  rw [halloc]
  refine ⟨h1, hfree, hroot2, ?_, ?_⟩
  · rw [hroot2]
    intro hre
    exact hu ((hreach_iff u).mpr hre)
  · intro j hj
    rw [hroot2]
    exact (hreach_iff j).mp (hrest j hj)

/-- C10: when exactly one slot `u` is unreachable from the root and the free
list is empty, every `allocate` call succeeds, each call collects (the free
list is empty at every entry), and each call returns that same slot `u`. -/
theorem C10_single_slot_determinism (u : Fin n) :
    ∀ (k : ℕ) (s : GC n), s.free_list = none → ¬ Reach s.heap s.root u →
      (∀ j, j ≠ u → Reach s.heap s.root j) →
      (iterAlloc k s).1 = List.replicate k (some u) ∧
      (iterAlloc k s).2.free_list = none := by
  intro k
  induction k with
  | zero => intro s hs _ _; exact ⟨rfl, hs⟩
  | succ m ih =>
    intro s hs hu hrest
    obtain ⟨h1, h2, h3, h4, h5⟩ := alloc_single_garbage_step s u hs hu hrest
    obtain ⟨ih1, ih2⟩ := ih (allocate s).2 h2 h4 h5
    constructor
    · rw [iterAlloc_fst_succ, h1, List.replicate_succ, ih1]
    · rw [iterAlloc_snd_succ]
      exact ih2

/-- Concrete state for the C10 witness: capacity 2, root is slot 0 with null
fields, slot 1 unreachable, free list empty. -/
def wGarbage : GC 2 :=
  { heap := fun _ => ⟨none, none, false⟩, root := some 0, free_list := none }

/-- Witness for C10 at `wGarbage`: three consecutive allocations all return
slot 1. -/
theorem C10_single_slot_determinism_witness :
    (iterAlloc 3 wGarbage).1 = List.replicate 3 (some 1) ∧
    (iterAlloc 3 wGarbage).2.free_list = none := by
  refine C10_single_slot_determinism 1 3 wGarbage rfl ?_ ?_
  · intro hre
    have h01 : (1 : Fin 2) = 0 :=
      reach_only_self (h := wGarbage.heap) rfl rfl hre
    exact absurd h01 (by decide)
  · intro j hj
    have hv : (j : ℕ) ≠ 1 := fun hv => hj (Fin.ext hv)
    have hj0 : j = 0 := Fin.ext (by omega)
    rw [hj0]
    exact Relation.ReflTransGen.refl

/-! ### The claim C4 -/

/-- Counterexample to C4 as literally stated: client root mutation with an
arbitrary handle does not preserve the free-list invariant.  Starting from
the freshly initialized capacity-1 heap (which satisfies the invariant), the
client write `root = &heap[0]` makes the free-list head reachable from the
root, violating the invariant. -/
theorem C4_counterexample :
    WF (init_heap (initState : GC 1)) ∧
    ¬ WF (setRoot (init_heap (initState : GC 1)) (some 0)) := by
  constructor
  · exact wf_init
  · rintro ⟨l, hc, hnd, hroot, hclos⟩
    have hfl : (setRoot (init_heap (initState : GC 1)) (some 0)).free_list = some 0 := by
      decide
    cases l with
    | nil =>
      have hnil := IsChain_nil hc
      rw [hfl] at hnil
      exact Option.noConfusion hnil
    | cons q l' =>
      obtain ⟨hq, -⟩ := IsChain_cons hc
      rw [hfl] at hq
      obtain rfl : (0 : Fin 1) = q := by injection hq
      exact hroot 0 rfl (List.mem_cons_self 0 l')

/-- C4 amended: the free-list invariant — the free list is a proper
duplicate-free chain disjoint from everything the program can reach, and
slots are only relabeled, never created or destroyed — is established by
initialization and preserved by `allocate` (collections included) and by
every client root or field mutation that writes an absent reference or a
reference to a slot that is not on the free list (the only references a
well-behaved client can hold). -/
theorem C4_freelist_invariant :
    WF (init_heap (initState : GC n)) ∧
    (∀ s : GC n, WF s → WF (allocate s).2) ∧
    (∀ (s : GC n) (v : Option (Fin n)), WF s → OffFree s v →
      WF (setRoot s v)) ∧
    (∀ (s : GC n) (a : Fin n) (v : Option (Fin n)), WF s → OffFree s v →
      WF (setHead s a v)) ∧
    (∀ (s : GC n) (a : Fin n) (v : Option (Fin n)), WF s →
      OffFree s (some a) → OffFree s v → WF (setTail s a v)) ∧
    (∀ (s : GC n) (l : List (Fin n)), WF s → IsChain s.heap s.free_list l →
      l.Nodup ∧ (∀ j ∈ l, ¬ Reach s.heap s.root j) ∧
      l.length + ((Finset.univ : Finset (Fin n)).filter fun i => i ∉ l).card = n) := by
  refine ⟨wf_init, fun s hwf => wf_allocate hwf,
    fun s v hwf hv => wf_setRoot hwf hv,
    fun s a v hwf hv => wf_setHead hwf hv,
    fun s a v hwf ha hv => wf_setTail hwf ha hv, ?_⟩
  intro s l hwf hl
  refine ⟨?_, wf_reach_disjoint hwf hl, wf_conservation hwf hl⟩
  obtain ⟨l0, hc0, hnd0, -, -⟩ := hwf
  have hll : l = l0 := IsChain_unique hl hc0
  rw [hll]
  exact hnd0

/-- Witness for C4 (amended), capacity 1: the initialized heap satisfies the
invariant, and it is preserved by an `allocate` call and by a root write of
the allocated (non-free) slot. -/
theorem C4_freelist_invariant_witness :
    WF (allocate (init_heap (initState : GC 1))).2 ∧
    WF (setRoot (allocate (init_heap (initState : GC 1))).2 (some 0)) := by
  have hwf0 : WF (init_heap (initState : GC 1)) :=
    (C4_freelist_invariant (n := 1)).1
  have hwf1 : WF (allocate (init_heap (initState : GC 1))).2 :=
    (C4_freelist_invariant (n := 1)).2.1 _ hwf0
  refine ⟨hwf1, (C4_freelist_invariant (n := 1)).2.2.1 _ (some 0) hwf1 ?_⟩
  intro l hl b hb hmem
  -- after the allocation the free list is empty, so its chain is [] and
  -- membership is impossible
  have hfl : (allocate (init_heap (initState : GC 1))).2.free_list = none := by
    decide
  cases l with
  | nil => exact List.not_mem_nil b hmem
  | cons q l' =>
    obtain ⟨hq, -⟩ := IsChain_cons hl
    rw [hfl] at hq
    exact Option.noConfusion hq

end GCfifty
